import Mathlib

/-!
Verification of the DOCX text extractor/merger (`src/main.rs`).

The program's core is `extract_text_from_docx`: it scans the XML part
`word/document.xml` of a DOCX package as a stream of `quick_xml` events,
keeping a boolean flag `in_instr_text` that is set on `<w:instrText>`
start tags and cleared on the matching end tags; text events are appended
to an accumulator (entity-unescaped, each followed by one space) unless
`strip_hyperlinks` is set and the flag is on; at Eof the accumulator is
trimmed and returned, and any reader error aborts the extraction.
`merge_docx_files` extracts each path in order, appending each result plus
`"\n\n"` to an accumulator, aborting on the first error, and trims the
final result.

The embedding works at the level the spec describes: the archive access
and the XML tokenizer are external collaborators, so a document is given
as the finite stream of reader results (events or reader errors) that the
loop in `extract_text_from_docx` consumes.  Strings are `List Char`.
-/

namespace Docx

/-- Unicode `White_Space` code points, the set Rust's `char::is_whitespace`
(and hence `str::trim`) uses. -/
def rustIsWhitespace (c : Char) : Bool :=
  c.toNat = 0x09 || c.toNat = 0x0A || c.toNat = 0x0B || c.toNat = 0x0C ||
  c.toNat = 0x0D || c.toNat = 0x20 || c.toNat = 0x85 || c.toNat = 0xA0 ||
  c.toNat = 0x1680 || (0x2000 ≤ c.toNat && c.toNat ≤ 0x200A) ||
  c.toNat = 0x2028 || c.toNat = 0x2029 || c.toNat = 0x202F ||
  c.toNat = 0x205F || c.toNat = 0x3000

/-- Drop trailing whitespace (the right half of Rust `str::trim`). -/
def rdropWS (l : List Char) : List Char :=
  (l.reverse.dropWhile rustIsWhitespace).reverse

/-- Rust `str::trim`: drop leading and trailing whitespace. -/
def trim (l : List Char) : List Char :=
  (rdropWS l).dropWhile rustIsWhitespace

/-- The error taxonomy of the spec (§7) for the extraction core: reader
errors surface as `malformedMarkup`, entity-unescape failures as
`encodingError`.  (Archive-level errors happen before the scan the claims
are about and are outside the event-stream model.) -/
inductive ExtractionError
  | malformedMarkup
  | encodingError
deriving DecidableEq, Repr

/-- The markup events the loop consumes (spec §3 `MarkupEvent`).
`other` stands for every `quick_xml` event the loop's wildcard arm
ignores (`Empty`, `Comment`, `CData`, declarations, ...); end-of-stream
(`Eof`) is the end of the list. -/
inductive MarkupEvent
  | start (name : List Char)
  | endElem (name : List Char)
  | text (content : List Char)
  | other
deriving DecidableEq, Repr

deriving instance DecidableEq for Except

/-- One reader result: an event, or a reader error (`Err(e)` in the loop). -/
abbrev ReaderResult := Except ExtractionError MarkupEvent

/-- The tag name `w:instrText` the loop compares against. -/
def instrTextName : List Char := "w:instrText".data

/-- The five predefined XML entities, plus numeric character references,
as resolved by `quick_xml`'s `unescape`; an unknown entity is an error. -/
def resolveNamedEntity (ent : List Char) : Option (List Char) :=
  if ent = "lt".data then some "<".data
  else if ent = "gt".data then some ">".data
  else if ent = "amp".data then some "&".data
  else if ent = "apos".data then some [Char.ofNat 39]
  else if ent = "quot".data then some [Char.ofNat 34]
  else none

/-- Decimal digit value. -/
def decDigitVal (c : Char) : Option Nat :=
  if 48 ≤ c.toNat ∧ c.toNat ≤ 57 then some (c.toNat - 48) else none

/-- Hexadecimal digit value. -/
def hexDigitVal (c : Char) : Option Nat :=
  if 48 ≤ c.toNat ∧ c.toNat ≤ 57 then some (c.toNat - 48)
  else if 97 ≤ c.toNat ∧ c.toNat ≤ 102 then some (c.toNat - 87)
  else if 65 ≤ c.toNat ∧ c.toNat ≤ 70 then some (c.toNat - 55)
  else none

/-- Parse a nonempty digit string in the given base. -/
def parseDigitsGo (dv : Char → Option Nat) (base : Nat) :
    List Char → Nat → Option Nat
  | [], acc => some acc
  | c :: rest, acc =>
    match dv c with
    | some d => parseDigitsGo dv base rest (acc * base + d)
    | none => none

/-- Parse a digit string; `none` when empty or containing a non-digit. -/
def parseDigits (dv : Char → Option Nat) (base : Nat) :
    List Char → Option Nat
  | [] => none
  | l => parseDigitsGo dv base l 0

/-- Resolve the body of one `&...;` reference, numeric or named. -/
def resolveEntity (ent : List Char) : Option (List Char) :=
  match ent with
  | '#' :: 'x' :: ds =>
    match parseDigits hexDigitVal 16 ds with
    | some n => if n.isValidChar then some [Char.ofNat n] else none
    | none => none
  | '#' :: ds =>
    match parseDigits decDigitVal 10 ds with
    | some n => if n.isValidChar then some [Char.ofNat n] else none
    | none => none
  | _ => resolveNamedEntity ent

/-- Worker for `unescape`: the second argument is `some ent` (reversed
accumulated entity body) while scanning between a `&` and its `;`.  An
unterminated or unknown reference is an error, as in `quick_xml`. -/
def unescapeGo : List Char → Option (List Char) →
    Except ExtractionError (List Char)
  | [], none => .ok []
  | [], some _ => .error .encodingError
  | c :: rest, none =>
    if c = '&' then unescapeGo rest (some [])
    else
      match unescapeGo rest none with
      | .ok u => .ok (c :: u)
      | .error e => .error e
  | c :: rest, some ent =>
    if c = ';' then
      match resolveEntity ent.reverse with
      | some r =>
        match unescapeGo rest none with
        | .ok u => .ok (r ++ u)
        | .error e => .error e
      | none => .error .encodingError
    else unescapeGo rest (some (c :: ent))

/-- Model of `quick_xml`'s entity unescaping, applied by the loop to each
text event (`e.unescape()?`). -/
def unescape (s : List Char) : Except ExtractionError (List Char) :=
  unescapeGo s none

/-- The event loop of `extract_text_from_docx`, with the mutable state
(`in_instr_text`, `text`) passed explicitly; returns both at Eof.
Mirrors the `loop { match reader.read_event_into(&mut buf) { ... } }`. -/
def extractLoop (strip_hyperlinks : Bool) :
    List ReaderResult → Bool → List Char →
    Except ExtractionError (Bool × List Char)
  | [], in_instr_text, text => .ok (in_instr_text, text)
  | .error e :: _, _, _ => .error e
  | .ok ev :: rest, in_instr_text, text =>
    match ev with
    | .start n =>
      extractLoop strip_hyperlinks rest
        (if n = instrTextName then true else in_instr_text) text
    | .endElem n =>
      extractLoop strip_hyperlinks rest
        (if n = instrTextName then false else in_instr_text) text
    | .text c =>
      if strip_hyperlinks && in_instr_text then
        extractLoop strip_hyperlinks rest in_instr_text text
      else
        match unescape c with
        | .ok u => extractLoop strip_hyperlinks rest in_instr_text
            (text ++ u ++ [' '])
        | .error e => .error e
    | .other => extractLoop strip_hyperlinks rest in_instr_text text

/-- `extract_text_from_docx`, from the point where the document's reader
results are in hand: run the loop from `in_instr_text = false` and an
empty accumulator, and return `Ok(text.trim())`. -/
def extract_text_from_docx (strip_hyperlinks : Bool)
    (events : List ReaderResult) : Except ExtractionError (List Char) :=
  match extractLoop strip_hyperlinks events false [] with
  | .ok st => .ok (trim st.2)
  | .error e => .error e

/-- The loop of `merge_docx_files`: extract each document in order,
appending its text plus `"\n\n"`, aborting on the first error. -/
def mergeLoop (strip_hyperlinks : Bool) :
    List (List ReaderResult) → List Char →
    Except ExtractionError (List Char)
  | [], merged_text => .ok merged_text
  | doc :: rest, merged_text =>
    match extract_text_from_docx strip_hyperlinks doc with
    | .ok t => mergeLoop strip_hyperlinks rest (merged_text ++ t ++ "\n\n".data)
    | .error e => .error e

/-- `merge_docx_files`: run the merge loop on the documents' reader
results and return `Ok(merged_text.trim())`. -/
def merge_docx_files (strip_hyperlinks : Bool)
    (docs : List (List ReaderResult)) : Except ExtractionError (List Char) :=
  match mergeLoop strip_hyperlinks docs [] with
  | .ok t => .ok (trim t)
  | .error e => .error e

/-- The chunk-sequence view of the same loop: instead of the flat
accumulator it returns the list of unescaped text chunks the loop
accepts, in order, together with the final flag.  `extractLoop` is the
fold of these chunks with a one-space separator (proved below), so
membership in this list formalises "the extracted string contains that
chunk". -/
def chunkLoop (strip_hyperlinks : Bool) :
    List ReaderResult → Bool →
    Except ExtractionError (Bool × List (List Char))
  | [], in_instr_text => .ok (in_instr_text, [])
  | .error e :: _, _ => .error e
  | .ok ev :: rest, in_instr_text =>
    match ev with
    | .start n =>
      chunkLoop strip_hyperlinks rest
        (if n = instrTextName then true else in_instr_text)
    | .endElem n =>
      chunkLoop strip_hyperlinks rest
        (if n = instrTextName then false else in_instr_text)
    | .text c =>
      if strip_hyperlinks && in_instr_text then
        chunkLoop strip_hyperlinks rest in_instr_text
      else
        match unescape c with
        | .ok u =>
          match chunkLoop strip_hyperlinks rest in_instr_text with
          | .ok p => .ok (p.1, u :: p.2)
          | .error e => .error e
        | .error e => .error e
    | .other => chunkLoop strip_hyperlinks rest in_instr_text

/-- The chunks a whole extraction accepts (from the initial state). -/
def emittedChunks (strip_hyperlinks : Bool) (events : List ReaderResult) :
    Except ExtractionError (List (List Char)) :=
  match chunkLoop strip_hyperlinks events false with
  | .ok p => .ok p.2
  | .error e => .error e

/-- Join chunks, each followed by exactly one space (the loop's
`push_str` / `push(' ')` pattern). -/
def joinSp (chunks : List (List Char)) : List Char :=
  (chunks.map (fun c => c ++ [' '])).flatten

/-- The flag transition of one event, read off the loop's `Start`/`End`
arms: keyed purely on the tag name. -/
def flagStep (b : Bool) : MarkupEvent → Bool
  | .start n => if n = instrTextName then true else b
  | .endElem n => if n = instrTextName then false else b
  | .text _ => b
  | .other => b

/-- An event that changes (or re-asserts) the flag: a start or end tag
named `w:instrText`. -/
def instrKeyed (e : MarkupEvent) : Prop :=
  e = .start instrTextName ∨ e = .endElem instrTextName

instance (e : MarkupEvent) : Decidable (instrKeyed e) := by
  unfold instrKeyed; infer_instance

/-- Fuel-indexed version of the loop: one unit of fuel per iteration
(including the iteration that observes end-of-stream), `none` when fuel
runs out.  Used to state that the loop terminates after exactly one
iteration per reader result. -/
def extractLoopFuel (strip_hyperlinks : Bool) :
    Nat → List ReaderResult → Bool → List Char →
    Option (Except ExtractionError (Bool × List Char))
  | 0, _, _, _ => none
  | _ + 1, [], in_instr_text, text => some (.ok (in_instr_text, text))
  | _ + 1, .error e :: _, _, _ => some (.error e)
  | fuel + 1, .ok ev :: rest, in_instr_text, text =>
    match ev with
    | .start n =>
      extractLoopFuel strip_hyperlinks fuel rest
        (if n = instrTextName then true else in_instr_text) text
    | .endElem n =>
      extractLoopFuel strip_hyperlinks fuel rest
        (if n = instrTextName then false else in_instr_text) text
    | .text c =>
      if strip_hyperlinks && in_instr_text then
        extractLoopFuel strip_hyperlinks fuel rest in_instr_text text
      else
        match unescape c with
        | .ok u => extractLoopFuel strip_hyperlinks fuel rest in_instr_text
            (text ++ u ++ [' '])
        | .error e => some (.error e)
    | .other => extractLoopFuel strip_hyperlinks fuel rest in_instr_text text

/-- A document whose event stream is: text runs `pre`, then one
field-instruction element `<w:instrText>` with content `c`, then text
runs `post`.  The canonical shape for the field-suppression claims. -/
def docWithInstr (pre : List (List Char)) (c : List Char)
    (post : List (List Char)) : List ReaderResult :=
  (pre.map fun s => .ok (.text s)) ++
  ([.ok (.start instrTextName), .ok (.text c), .ok (.endElem instrTextName)] ++
   (post.map fun s => .ok (.text s)))

/-- The event stream `quick_xml` produces (with `trim_text(true)`) for the
test fixture `document.xml` holding the single run `Hello, world!`: the
declaration, the element starts, the one text chunk, the element ends. -/
def helloDoc : List ReaderResult :=
  [.ok .other,
   .ok (.start "w:document".data), .ok (.start "w:body".data),
   .ok (.start "w:p".data), .ok (.start "w:r".data),
   .ok (.start "w:t".data), .ok (.text "Hello, world!".data),
   .ok (.endElem "w:t".data), .ok (.endElem "w:r".data),
   .ok (.endElem "w:p".data), .ok (.endElem "w:body".data),
   .ok (.endElem "w:document".data)]

example : unescape "&amp;".data = .ok "&".data := by decide
example : unescape "&".data = .error .encodingError := by decide
example : unescape "a&#65;b".data = .ok "aAb".data := by decide
example :
    extract_text_from_docx false [.ok (.text "Hello, world!".data)] =
      .ok "Hello, world!".data := by decide
example :
    extract_text_from_docx true
      [.ok (.start instrTextName), .ok (.text "HYPERLINK x".data),
       .ok (.endElem instrTextName), .ok (.text "Visible".data)] =
      .ok "Visible".data := by decide
example :
    merge_docx_files false
      [[.ok (.text "A.".data)], [.ok (.text "B.".data)]] =
      .ok "A.\n\nB.".data := by decide

/-! ## Whitespace and trim lemmas -/

lemma dropWhile_append_all {p : Char → Bool} {a : List Char} (b : List Char)
    (h : a.all p = true) : (a ++ b).dropWhile p = b.dropWhile p := by
  induction a with
  | nil => rfl
  | cons c t ih =>
    simp only [List.all_cons, Bool.and_eq_true] at h
    simp [List.dropWhile_cons, h.1, ih h.2]

lemma all_dropWhile_nil {p : Char → Bool} {a : List Char}
    (h : a.all p = true) : a.dropWhile p = [] := by
  rw [List.dropWhile_eq_nil_iff]
  intro x hx
  exact List.all_eq_true.mp h x hx

lemma rdropWS_append_ws {x w : List Char}
    (h : w.all rustIsWhitespace = true) : rdropWS (x ++ w) = rdropWS x := by
  unfold rdropWS
  rw [List.reverse_append,
    dropWhile_append_all _ (by rw [List.all_reverse]; exact h)]

lemma trim_append_ws {x w : List Char}
    (h : w.all rustIsWhitespace = true) : trim (x ++ w) = trim x := by
  unfold trim
  rw [rdropWS_append_ws h]

lemma rdropWS_idem (l : List Char) : rdropWS (rdropWS l) = rdropWS l := by
  unfold rdropWS
  rw [List.reverse_reverse, List.dropWhile_idempotent]

lemma rdropWS_append (a b : List Char) :
    rdropWS (a ++ b) =
      if rdropWS b = [] then rdropWS a else a ++ rdropWS b := by
  unfold rdropWS
  rw [List.reverse_append, List.dropWhile_append]
  by_cases hb : List.dropWhile rustIsWhitespace b.reverse = []
  · simp [hb]
  · have hb2 : (List.dropWhile rustIsWhitespace b.reverse).reverse ≠ [] := by
      simpa using hb
    simp [hb, hb2, List.isEmpty_iff]

lemma rdropWS_dropWhile {z : List Char} (h : rdropWS z = z) :
    rdropWS (z.dropWhile rustIsWhitespace) = z.dropWhile rustIsWhitespace := by
  have hz := List.takeWhile_append_dropWhile rustIsWhitespace z
  have h2 : rdropWS (z.takeWhile rustIsWhitespace ++
      z.dropWhile rustIsWhitespace) = z := by rw [hz]; exact h
  rw [rdropWS_append] at h2
  by_cases hc : rdropWS (z.dropWhile rustIsWhitespace) = []
  · rw [if_pos hc] at h2
    have htwall : (z.takeWhile rustIsWhitespace).all rustIsWhitespace = true := by
      rw [List.all_eq_true]
      intro x hx
      exact List.mem_takeWhile_imp hx
    have htw : rdropWS (z.takeWhile rustIsWhitespace) = [] := by
      unfold rdropWS
      rw [all_dropWhile_nil (by rw [List.all_reverse]; exact htwall)]
      rfl
    rw [htw] at h2
    rw [← h2]
    rfl
  · rw [if_neg hc] at h2
    conv_rhs at h2 => rw [← hz]
    exact List.append_cancel_left h2

lemma trim_trim (x : List Char) : trim (trim x) = trim x := by
  unfold trim
  rw [rdropWS_dropWhile (rdropWS_idem x), List.dropWhile_idempotent]

/-! ## Loop composition lemmas -/

lemma extractLoop_append (strip : Bool) (xs ys : List ReaderResult) :
    ∀ b acc, extractLoop strip (xs ++ ys) b acc =
      match extractLoop strip xs b acc with
      | .ok p => extractLoop strip ys p.1 p.2
      | .error e => .error e := by
  induction xs with
  | nil => intro b acc; rfl
  | cons r rest ih =>
    intro b acc
    cases r with
    | error e => rfl
    | ok ev =>
      cases ev with
      | start n => simp only [List.cons_append, extractLoop]; exact ih _ _
      | endElem n => simp only [List.cons_append, extractLoop]; exact ih _ _
      | text c =>
        simp only [List.cons_append, extractLoop]
        by_cases hb : (strip && b) = true
        · simp only [if_pos hb]; exact ih _ _
        · simp only [if_neg hb]
          cases hu : unescape c with
          | ok u => exact ih _ _
          | error e => rfl
      | other => simp only [List.cons_append, extractLoop]; exact ih _ _

lemma chunkLoop_append (strip : Bool) (xs ys : List ReaderResult) :
    ∀ b, chunkLoop strip (xs ++ ys) b =
      match chunkLoop strip xs b with
      | .ok p =>
        match chunkLoop strip ys p.1 with
        | .ok q => .ok (q.1, p.2 ++ q.2)
        | .error e => .error e
      | .error e => .error e := by
  induction xs with
  | nil =>
    intro b
    simp only [List.nil_append, chunkLoop]
    cases hq : chunkLoop strip ys b <;> simp
  | cons r rest ih =>
    intro b
    cases r with
    | error e => rfl
    | ok ev =>
      cases ev with
      | start n => simp only [List.cons_append, chunkLoop]; exact ih _
      | endElem n => simp only [List.cons_append, chunkLoop]; exact ih _
      | text c =>
        simp only [List.cons_append, chunkLoop]
        by_cases hb : (strip && b) = true
        · simp only [if_pos hb]; exact ih _
        · simp only [if_neg hb]
          cases hu : unescape c with
          | ok u =>
            simp only [List.append_eq] at ih ⊢
            rw [ih _]
            cases hr : chunkLoop strip rest b with
            | ok p =>
              cases hy : chunkLoop strip ys p.1 <;> simp [hy]
            | error e => rfl
          | error e => rfl
      | other => simp only [List.cons_append, chunkLoop]; exact ih _

lemma extractLoop_eq_chunkLoop (strip : Bool) (evs : List ReaderResult) :
    ∀ b acc, extractLoop strip evs b acc =
      match chunkLoop strip evs b with
      | .ok p => .ok (p.1, acc ++ joinSp p.2)
      | .error e => .error e := by
  induction evs with
  | nil => intro b acc; simp [extractLoop, chunkLoop, joinSp]
  | cons r rest ih =>
    intro b acc
    cases r with
    | error e => rfl
    | ok ev =>
      cases ev with
      | start n => simp only [extractLoop, chunkLoop]; exact ih _ _
      | endElem n => simp only [extractLoop, chunkLoop]; exact ih _ _
      | text c =>
        simp only [extractLoop, chunkLoop]
        by_cases hb : (strip && b) = true
        · simp only [if_pos hb]; exact ih _ _
        · simp only [if_neg hb]
          cases hu : unescape c with
          | ok u =>
            dsimp only
            rw [ih _ _]
            cases hr : chunkLoop strip rest b with
            | ok p => simp [hr, joinSp, List.append_assoc]
            | error e => simp [hr]
          | error e => rfl
      | other => simp only [extractLoop, chunkLoop]; exact ih _ _

lemma chunkLoop_texts (strip : Bool) (texts : List (List Char))
    (h : ∀ s ∈ texts, unescape s = .ok s) :
    chunkLoop strip (texts.map fun s => .ok (.text s)) false =
      .ok (false, texts) := by
  induction texts with
  | nil => rfl
  | cons s rest ih =>
    have hs : unescape s = .ok s := h s (by simp)
    have hrest : ∀ t ∈ rest, unescape t = .ok t :=
      fun t ht => h t (by simp [ht])
    simp [chunkLoop, hs, ih hrest]

/-! ## Flag state-machine lemmas -/

lemma extractLoop_flag (strip : Bool) (evs : List MarkupEvent) :
    ∀ b acc p, extractLoop strip (evs.map Except.ok) b acc = .ok p →
      p.1 = List.foldl flagStep b evs := by
  induction evs with
  | nil =>
    intro b acc p h
    simp only [List.map_nil, extractLoop, Except.ok.injEq] at h
    rw [← h]
    rfl
  | cons ev rest ih =>
    intro b acc p h
    cases ev with
    | start n =>
      simp only [List.map_cons, extractLoop] at h
      simpa [flagStep] using ih _ _ _ h
    | endElem n =>
      simp only [List.map_cons, extractLoop] at h
      simpa [flagStep] using ih _ _ _ h
    | text c =>
      simp only [List.map_cons, extractLoop] at h
      by_cases hb : (strip && b) = true
      · rw [if_pos hb] at h
        simpa [flagStep] using ih _ _ _ h
      · rw [if_neg hb] at h
        cases hu : unescape c with
        | ok u =>
          rw [hu] at h
          simpa [flagStep] using ih _ _ _ h
        | error e => rw [hu] at h; cases h
    | other =>
      simp only [List.map_cons, extractLoop] at h
      simpa [flagStep] using ih _ _ _ h

lemma not_instrKeyed_start {n : List Char} (hn : n ≠ instrTextName) :
    ¬ instrKeyed (MarkupEvent.start n) := by
  simp [instrKeyed, hn]

lemma not_instrKeyed_end {n : List Char} (hn : n ≠ instrTextName) :
    ¬ instrKeyed (MarkupEvent.endElem n) := by
  simp [instrKeyed, hn]

lemma not_instrKeyed_text (s : List Char) :
    ¬ instrKeyed (MarkupEvent.text s) := by
  simp [instrKeyed]

lemma not_instrKeyed_other : ¬ instrKeyed MarkupEvent.other := by
  simp [instrKeyed]

lemma flagStep_unkeyed {e : MarkupEvent} (he : ¬ instrKeyed e) (b : Bool) :
    flagStep b e = b := by
  cases e with
  | start n =>
    have hn : n ≠ instrTextName := fun h => he (Or.inl (by rw [h]))
    simp [flagStep, hn]
  | endElem n =>
    have hn : n ≠ instrTextName := fun h => he (Or.inr (by rw [h]))
    simp [flagStep, hn]
  | text s => rfl
  | other => rfl

lemma decomp_append_unkeyed (l : List MarkupEvent) (e : MarkupEvent)
    (he : ¬ instrKeyed e) :
    (∃ u v, l ++ [e] = u ++ MarkupEvent.start instrTextName :: v ∧
        ∀ x ∈ v, ¬ instrKeyed x) ↔
    (∃ u v, l = u ++ MarkupEvent.start instrTextName :: v ∧
        ∀ x ∈ v, ¬ instrKeyed x) := by
  constructor
  · rintro ⟨u, v, hl, hv⟩
    rcases List.eq_nil_or_concat v with rfl | ⟨v2, x, rfl⟩
    · have h2 := (List.append_inj' hl rfl).2
      have he2 : e = MarkupEvent.start instrTextName := by
        injection h2 with h3 _
      exact absurd (Or.inl he2 : instrKeyed e) he
    · have hl2 : l ++ [e] = (u ++ MarkupEvent.start instrTextName :: v2) ++ [x] := by
        rw [hl]
        simp
      obtain ⟨h1, h2⟩ := List.append_inj' hl2 rfl
      exact ⟨u, v2, h1, fun y hy => hv y (by simp [hy])⟩
  · rintro ⟨u, v, rfl, hv⟩
    refine ⟨u, v ++ [e], by simp, fun y hy => ?_⟩
    rcases List.mem_append.mp hy with h1 | h2
    · exact hv y h1
    · have : y = e := by simpa using h2
      rw [this]
      exact he

lemma flag_true_iff (l : List MarkupEvent) :
    List.foldl flagStep false l = true ↔
      ∃ u v, l = u ++ MarkupEvent.start instrTextName :: v ∧
        ∀ e ∈ v, ¬ instrKeyed e := by
  induction l using List.reverseRecOn with
  | nil =>
    simp only [List.foldl_nil]
    constructor
    · intro h
      cases h
    · rintro ⟨u, v, h, _⟩
      exact absurd h (by simp)
  | append_singleton l e ih =>
    rw [List.foldl_append]
    simp only [List.foldl_cons, List.foldl_nil]
    by_cases hk : instrKeyed e
    · rcases hk with hk | hk
    -- keyed start
      · rw [hk]
        simp only [flagStep, if_pos rfl]
        constructor
        · intro _
          exact ⟨l, [], rfl, by simp⟩
        · intro _
          rfl
    -- keyed end
      · rw [hk]
        simp only [flagStep, if_pos rfl]
        constructor
        · intro h
          cases h
        · rintro ⟨u, v, hl, hv⟩
          rcases List.eq_nil_or_concat v with rfl | ⟨v2, x, rfl⟩
          · have h2 := (List.append_inj' hl rfl).2
            cases h2
          · have hl2 : l ++ [MarkupEvent.endElem instrTextName] =
                (u ++ MarkupEvent.start instrTextName :: v2) ++ [x] := by
              rw [hl]
              simp
            have h2 := (List.append_inj' hl2 rfl).2
            have hx : x = MarkupEvent.endElem instrTextName := by
              injection h2.symm with h3 _
            exact absurd (Or.inr hx : instrKeyed x) (hv x (by simp))
    · rw [flagStep_unkeyed hk, decomp_append_unkeyed l e hk]
      exact ih

lemma flag_false_of_balanced (l : List MarkupEvent)
    (h : ∀ u v, l = u ++ MarkupEvent.start instrTextName :: v →
      MarkupEvent.endElem instrTextName ∈ v) :
    List.foldl flagStep false l = false := by
  cases hfold : List.foldl flagStep false l with
  | false => rfl
  | true =>
    obtain ⟨u, v, hl, hv⟩ := (flag_true_iff l).mp hfold
    exact absurd (Or.inr rfl : instrKeyed (MarkupEvent.endElem instrTextName))
      (hv _ (h u v hl))

/-! ## Error propagation, stripping independence, unescape, merge, fuel -/

lemma extractLoop_error_of_mem (strip : Bool) (evs : List ReaderResult)
    (e : ExtractionError) :
    ∀ b acc, Except.error e ∈ evs →
      ∃ e2, extractLoop strip evs b acc = .error e2 := by
  induction evs with
  | nil => intro b acc h; simp at h
  | cons r rest ih =>
    intro b acc h
    cases r with
    | error e1 => exact ⟨e1, rfl⟩
    | ok ev =>
      have hmem : Except.error e ∈ rest := by
        rcases List.mem_cons.mp h with h1 | h2
        · cases h1
        · exact h2
      cases ev with
      | start n => simpa only [extractLoop] using ih _ _ hmem
      | endElem n => simpa only [extractLoop] using ih _ _ hmem
      | text c =>
        simp only [extractLoop]
        by_cases hb : (strip && b) = true
        · rw [if_pos hb]
          exact ih _ _ hmem
        · rw [if_neg hb]
          cases hu : unescape c with
          | ok u => exact ih _ _ hmem
          | error e1 => exact ⟨e1, rfl⟩
      | other => simpa only [extractLoop] using ih _ _ hmem

lemma extractLoop_texts_strip_indep (evs : List ReaderResult)
    (h : ∀ r ∈ evs, ∃ s, r = Except.ok (MarkupEvent.text s)) :
    ∀ acc, extractLoop true evs false acc = extractLoop false evs false acc := by
  induction evs with
  | nil => intro acc; rfl
  | cons r rest ih =>
    intro acc
    obtain ⟨s, rfl⟩ := h r (by simp)
    have hrest : ∀ r ∈ rest, ∃ s, r = Except.ok (MarkupEvent.text s) :=
      fun r hr => h r (by simp [hr])
    simp only [extractLoop]
    rw [if_neg (by decide : ¬ (true && false) = true),
      if_neg (by decide : ¬ (false && false) = true)]
    cases hu : unescape s with
    | ok u => exact ih hrest _
    | error e => rfl

lemma unescape_no_amp {s : List Char} (h : ∀ c ∈ s, c ≠ '&') :
    unescape s = .ok s := by
  unfold unescape
  induction s with
  | nil => rfl
  | cons c rest ih =>
    have hc : c ≠ '&' := h c (by simp)
    have hrest : ∀ c ∈ rest, c ≠ '&' := fun d hd => h d (by simp [hd])
    simp only [unescapeGo, if_neg hc, ih hrest]

lemma mergeLoop_ok_pre (strip : Bool) (pre : List (List ReaderResult)) :
    ∀ acc rest, (∀ p ∈ pre, ∃ t, extract_text_from_docx strip p = .ok t) →
      ∃ acc2, mergeLoop strip (pre ++ rest) acc = mergeLoop strip rest acc2 := by
  induction pre with
  | nil => intro acc rest h; exact ⟨acc, rfl⟩
  | cons d ds ih =>
    intro acc rest h
    obtain ⟨t, ht⟩ := h d (by simp)
    simp only [List.cons_append, mergeLoop, ht]
    exact ih _ _ (fun p hp => h p (by simp [hp]))

lemma extractLoopFuel_eq (strip : Bool) :
    ∀ fuel evs b acc, List.length evs < fuel →
      extractLoopFuel strip fuel evs b acc =
        some (extractLoop strip evs b acc) := by
  intro fuel
  induction fuel with
  | zero => intro evs b acc h; exact absurd h (Nat.not_lt_zero _)
  | succ f ih =>
    intro evs b acc h
    cases evs with
    | nil => rfl
    | cons r rest =>
      have hlen : rest.length < f := by
        simpa using Nat.lt_of_succ_lt_succ (by simpa using h)
      cases r with
      | error e => rfl
      | ok ev =>
        cases ev with
        | start n =>
          simpa only [extractLoopFuel, extractLoop] using ih rest _ _ hlen
        | endElem n =>
          simpa only [extractLoopFuel, extractLoop] using ih rest _ _ hlen
        | text c =>
          simp only [extractLoopFuel, extractLoop]
          by_cases hb : (strip && b) = true
          · rw [if_pos hb, if_pos hb]
            exact ih rest _ _ hlen
          · rw [if_neg hb, if_neg hb]
            cases hu : unescape c with
            | ok u => exact ih rest _ _ hlen
            | error e => rfl
        | other =>
          simpa only [extractLoopFuel, extractLoop] using ih rest _ _ hlen

/-! ## Field-instruction document computations -/

lemma chunkLoop_instr_true (c : List Char) (b : Bool) :
    chunkLoop true
      ([.ok (.start instrTextName), .ok (.text c),
        .ok (.endElem instrTextName)] : List ReaderResult) b =
      .ok (false, []) := by
  simp [chunkLoop]

lemma chunkLoop_instr_false (c u : List Char) (b : Bool)
    (hu : unescape c = .ok u) :
    chunkLoop false
      ([.ok (.start instrTextName), .ok (.text c),
        .ok (.endElem instrTextName)] : List ReaderResult) b =
      .ok (false, [u]) := by
  simp [chunkLoop, hu]

lemma chunkLoop_docWithInstr_true (pre post : List (List Char))
    (c : List Char)
    (hpre : ∀ s ∈ pre, unescape s = .ok s)
    (hpost : ∀ s ∈ post, unescape s = .ok s) :
    chunkLoop true (docWithInstr pre c post) false =
      .ok (false, pre ++ post) := by
  unfold docWithInstr
  rw [chunkLoop_append, chunkLoop_texts true pre hpre]
  dsimp only
  rw [chunkLoop_append, chunkLoop_instr_true c false]
  dsimp only
  rw [chunkLoop_texts true post hpost]
  simp

lemma chunkLoop_docWithInstr_false (pre post : List (List Char))
    (c u : List Char)
    (hpre : ∀ s ∈ pre, unescape s = .ok s)
    (hpost : ∀ s ∈ post, unescape s = .ok s)
    (hu : unescape c = .ok u) :
    chunkLoop false (docWithInstr pre c post) false =
      .ok (false, pre ++ u :: post) := by
  unfold docWithInstr
  rw [chunkLoop_append, chunkLoop_texts false pre hpre]
  dsimp only
  rw [chunkLoop_append, chunkLoop_instr_false c u false hu]
  dsimp only
  rw [chunkLoop_texts false post hpost]
  simp

/-! ## Claim theorems -/

/-- Claim C1: in a document with text runs `pre`, a field-instruction
element with arbitrary content `c`, and text runs `post`: with stripping
enabled the result is independent of `c` (so no `HYPERLINK` prefix or
any other property of the content matters — suppression is keyed on the
element kind alone) and the accepted chunks are exactly the outside runs;
with stripping disabled the instruction content is among the accepted
chunks, between the same outside runs. -/
theorem field_instruction_suppression (pre post : List (List Char))
    (c c2 : List Char)
    (hpre : ∀ s ∈ pre, unescape s = .ok s)
    (hpost : ∀ s ∈ post, unescape s = .ok s) :
    extract_text_from_docx true (docWithInstr pre c post) =
      extract_text_from_docx true (docWithInstr pre c2 post) ∧
    emittedChunks true (docWithInstr pre c post) = .ok (pre ++ post) ∧
    (∀ u, unescape c = .ok u →
      emittedChunks false (docWithInstr pre c post) =
        .ok (pre ++ u :: post)) := by
  have h1 := chunkLoop_docWithInstr_true pre post c hpre hpost
  have h2 := chunkLoop_docWithInstr_true pre post c2 hpre hpost
  refine ⟨?_, ?_, ?_⟩
  · unfold extract_text_from_docx
    rw [extractLoop_eq_chunkLoop, extractLoop_eq_chunkLoop, h1, h2]
  · unfold emittedChunks
    rw [h1]
  · intro u hu
    unfold emittedChunks
    rw [chunkLoop_docWithInstr_false pre post c u hpre hpost hu]

theorem field_instruction_suppression_witness :
    emittedChunks true
      (docWithInstr [] ("HYPERLINK https://x".data)
        ["Visible Link Text".data]) =
      .ok ["Visible Link Text".data] :=
  (field_instruction_suppression [] ["Visible Link Text".data]
    ("HYPERLINK https://x".data) [] (by intro s hs; simp at hs)
    (by intro s hs
        have h2 : s = "Visible Link Text".data := by simpa using hs
        rw [h2]; decide)).2.1

/-- Claim C2: for a document whose markup contains only ordinary text
runs and no field-instruction element, extraction with stripping enabled
equals extraction with stripping disabled. -/
theorem extract_strip_noop_on_text_only (evs : List ReaderResult)
    (h : ∀ r ∈ evs, ∃ s, r = Except.ok (MarkupEvent.text s)) :
    extract_text_from_docx true evs = extract_text_from_docx false evs := by
  unfold extract_text_from_docx
  rw [extractLoop_texts_strip_indep evs h []]

theorem extract_strip_noop_on_text_only_witness :
    extract_text_from_docx true [Except.ok (MarkupEvent.text "abc".data)] =
      extract_text_from_docx false [Except.ok (MarkupEvent.text "abc".data)] :=
  extract_strip_noop_on_text_only _
    (by intro r hr; exact ⟨"abc".data, by simpa using hr⟩)

/-- Claim C3: merging two documents that both extract successfully gives
the two extraction results joined by exactly one two-newline separator,
trimmed of outer whitespace. -/
theorem merge_two_docs (strip : Bool) (a b : List ReaderResult)
    (ta tb : List Char)
    (ha : extract_text_from_docx strip a = .ok ta)
    (hb : extract_text_from_docx strip b = .ok tb) :
    merge_docx_files strip [a, b] =
      .ok (trim (ta ++ "\n\n".data ++ tb)) := by
  have hnn : ("\n\n".data).all rustIsWhitespace = true := by decide
  simp only [merge_docx_files, mergeLoop, ha, hb, List.nil_append]
  rw [← @trim_append_ws (ta ++ "\n\n".data ++ tb) ("\n\n".data) hnn]

theorem merge_two_docs_witness :
    merge_docx_files false
      [[Except.ok (MarkupEvent.text "A.".data)],
       [Except.ok (MarkupEvent.text "B.".data)]] =
      .ok (trim ("A.".data ++ "\n\n".data ++ "B.".data)) :=
  merge_two_docs false [Except.ok (MarkupEvent.text "A.".data)]
    [Except.ok (MarkupEvent.text "B.".data)] "A.".data "B.".data
    (by decide) (by decide)

/-- Claim C5: the merger is fail-fast: when every document before `d`
extracts successfully and `d` fails with error `e`, the whole merge
returns that error, whatever documents follow — no partial merged string
is produced. -/
theorem merge_fail_fast (strip : Bool) (pre : List (List ReaderResult))
    (d : List ReaderResult) (post : List (List ReaderResult))
    (e : ExtractionError)
    (hpre : ∀ p ∈ pre, ∃ t, extract_text_from_docx strip p = .ok t)
    (hd : extract_text_from_docx strip d = .error e) :
    merge_docx_files strip (pre ++ d :: post) = .error e := by
  obtain ⟨acc2, hacc⟩ := mergeLoop_ok_pre strip pre [] (d :: post) hpre
  unfold merge_docx_files
  rw [hacc]
  simp [mergeLoop, hd]

theorem merge_fail_fast_witness :
    merge_docx_files false
      [[Except.ok (MarkupEvent.text "a".data)],
       [Except.error ExtractionError.malformedMarkup],
       [Except.ok (MarkupEvent.text "b".data)]] =
      .error ExtractionError.malformedMarkup :=
  merge_fail_fast false [[Except.ok (MarkupEvent.text "a".data)]]
    [Except.error ExtractionError.malformedMarkup]
    [[Except.ok (MarkupEvent.text "b".data)]]
    ExtractionError.malformedMarkup
    (by intro p hp
        have hp2 : p = [Except.ok (MarkupEvent.text "a".data)] := by
          simpa using hp
        exact ⟨"a".data, by rw [hp2]; decide⟩)
    (by decide)

/-- Claim C7: a reader error is terminal: whenever the event stream
contains a reader failure, extraction returns an error and never a
string; and the loop aborts with exactly the reader's error the moment
it reads it, discarding the accumulated text. -/
theorem extract_error_terminal :
    (∀ strip evs e, Except.error e ∈ evs →
      ∃ e2, extract_text_from_docx strip evs = .error e2) ∧
    (∀ strip rest b acc e,
      extractLoop strip (Except.error e :: rest) b acc = .error e) := by
  constructor
  · intro strip evs e h
    obtain ⟨e2, h2⟩ := extractLoop_error_of_mem strip evs e false [] h
    exact ⟨e2, by simp [extract_text_from_docx, h2]⟩
  · intro strip rest b acc e
    rfl

theorem extract_error_terminal_witness :
    ∃ e2, extract_text_from_docx true
      [Except.ok (MarkupEvent.text "a".data),
       Except.error ExtractionError.malformedMarkup] = .error e2 :=
  extract_error_terminal.1 true _ ExtractionError.malformedMarkup (by decide)

/-- Claim C9: merging an empty list of sources succeeds with the empty
string, under both flag values. -/
theorem merge_empty : ∀ strip : Bool, merge_docx_files strip [] = .ok [] := by
  intro strip
  rfl

/-- Claim C10: the extraction loop terminates, consuming exactly one
reader result per iteration: with any fuel bound above the stream length
the fuel-instrumented loop finishes and agrees with the loop, and the
loop exits immediately on end-of-stream and on a reader error. -/
theorem extraction_loop_terminates :
    (∀ strip fuel evs b acc, List.length evs < fuel →
      extractLoopFuel strip fuel evs b acc =
        some (extractLoop strip evs b acc)) ∧
    (∀ strip b acc,
      extractLoop strip [] b acc = .ok (b, acc)) ∧
    (∀ strip rest b acc e,
      extractLoop strip (Except.error e :: rest) b acc = .error e) :=
  ⟨fun strip fuel evs b acc h => extractLoopFuel_eq strip fuel evs b acc h,
    fun _ _ _ => rfl, fun _ _ _ _ _ => rfl⟩

theorem extraction_loop_terminates_witness :
    extractLoopFuel true 2 [Except.ok MarkupEvent.other] false [] =
      some (extractLoop true [Except.ok MarkupEvent.other] false []) :=
  extraction_loop_terminates.1 true 2 _ false [] (by decide)

/-- Claim C4: the per-document result is the accepted chunks, each
entity-unescaped and followed by exactly one space, with the final
string trimmed of outer whitespace; concretely, the single-run
`Hello, world!` document extracts to exactly that string under both
flag values. -/
theorem extract_joins_chunks_with_space :
    (∀ strip evs, extract_text_from_docx strip evs =
      match emittedChunks strip evs with
      | .ok cs => .ok (trim (joinSp cs))
      | .error e => .error e) ∧
    extract_text_from_docx true helloDoc = .ok "Hello, world!".data ∧
    extract_text_from_docx false helloDoc = .ok "Hello, world!".data := by
  refine ⟨?_, by decide, by decide⟩
  intro strip evs
  unfold extract_text_from_docx emittedChunks
  rw [extractLoop_eq_chunkLoop]
  cases h : chunkLoop strip evs false with
  | ok p => simp
  | error e => simp

/-- Claim C6: the `in_instr_text` flag, as the fold of `flagStep` that
the loop computes (final conjunct), starts false, is set true exactly by
a start tag named `w:instrText`, set false exactly by an end tag with
that name, unchanged by every other event, is true exactly when the
events so far end inside an unclosed field-instruction element, and is
false at stream end whenever every instruction start is later closed. -/
theorem in_instr_text_invariant :
    (List.foldl flagStep false ([] : List MarkupEvent) = false) ∧
    (∀ l n, List.foldl flagStep false (l ++ [MarkupEvent.start n]) =
      (if n = instrTextName then true else List.foldl flagStep false l)) ∧
    (∀ l n, List.foldl flagStep false (l ++ [MarkupEvent.endElem n]) =
      (if n = instrTextName then false else List.foldl flagStep false l)) ∧
    (∀ l s, List.foldl flagStep false (l ++ [MarkupEvent.text s]) =
      List.foldl flagStep false l) ∧
    (∀ l, List.foldl flagStep false (l ++ [MarkupEvent.other]) =
      List.foldl flagStep false l) ∧
    (∀ l, List.foldl flagStep false l = true ↔
      ∃ u v, l = u ++ MarkupEvent.start instrTextName :: v ∧
        ∀ e ∈ v, ¬ instrKeyed e) ∧
    (∀ l, (∀ u v, l = u ++ MarkupEvent.start instrTextName :: v →
        MarkupEvent.endElem instrTextName ∈ v) →
      List.foldl flagStep false l = false) ∧
    (∀ strip evs b acc p,
      extractLoop strip (List.map Except.ok evs) b acc = .ok p →
        p.1 = List.foldl flagStep b evs) := by
  refine ⟨rfl, ?_, ?_, ?_, ?_, flag_true_iff, flag_false_of_balanced, ?_⟩
  · intro l n
    rw [List.foldl_append]
    rfl
  · intro l n
    rw [List.foldl_append]
    rfl
  · intro l s
    rw [List.foldl_append]
    rfl
  · intro l
    rw [List.foldl_append]
    rfl
  · intro strip evs b acc p h
    exact extractLoop_flag strip evs b acc p h

theorem in_instr_text_invariant_witness :
    List.foldl flagStep false [MarkupEvent.start instrTextName] = true :=
  (in_instr_text_invariant.2.2.2.2.2.2.2 true
    [MarkupEvent.start instrTextName] false [] (true, []) (by decide)).symm

/-- Claim C8 (amended): re-extracting an extraction output as a trivial
one-run document returns it unchanged, provided the output contains no
ampersand; an output containing `&` (produced from an `&amp;` entity)
fails entity-unescaping when fed back, so the claim does not hold for
every extraction output (see the counterexample). -/
theorem extract_idempotent_no_amp (strip strip2 : Bool)
    (evs : List ReaderResult) (s : List Char)
    (hs : extract_text_from_docx strip evs = .ok s)
    (hamp : ∀ ch ∈ s, ch ≠ '&') :
    extract_text_from_docx strip2 [Except.ok (MarkupEvent.text s)] =
      .ok s := by
  unfold extract_text_from_docx at hs
  cases hE : extractLoop strip evs false [] with
  | error e => rw [hE] at hs; cases hs
  | ok st =>
    rw [hE] at hs
    have hs2 : trim st.2 = s := by
      injection hs
    have key : extract_text_from_docx strip2
        [Except.ok (MarkupEvent.text s)] = .ok (trim (s ++ [' '])) := by
      unfold extract_text_from_docx
      simp only [extractLoop, Bool.and_false, unescape_no_amp hamp]
      rw [if_neg (by simp)]
      simp
    rw [key, trim_append_ws (by decide), ← hs2, trim_trim]

theorem extract_idempotent_no_amp_witness :
    extract_text_from_docx true [Except.ok (MarkupEvent.text "Hi".data)] =
      .ok "Hi".data :=
  extract_idempotent_no_amp true true
    [Except.ok (MarkupEvent.text "Hi".data)] "Hi".data
    (by decide) (by decide)

/-- Claim C8 counterexample: the string `&` is produced by a successful
extraction (of a one-run document holding `&amp;`), yet re-extracting it
as a trivial one-run document fails with an encoding error instead of
returning it unchanged. -/
theorem extract_idempotent_cex :
    extract_text_from_docx false
      [Except.ok (MarkupEvent.text "&amp;".data)] = .ok "&".data ∧
    extract_text_from_docx false
      [Except.ok (MarkupEvent.text "&".data)] =
      .error ExtractionError.encodingError :=
  ⟨by decide, by decide⟩

end Docx
